import Mathlib

/-!
Verification development for the ecewo-modules repository.

Bytes of C strings are modelled as `List Nat` (the bytes of the string,
excluding the terminating NUL).  Each definition mirrors one C function of
the repository; the file then proves or refutes the specified properties.
-/

set_option maxRecDepth 4000

/-- Model of `strchr`: splits `l` at the first occurrence of `sep`,
returning the part before it and the part after it. -/
def splitFirst (sep : Nat) : List Nat → Option (List Nat × List Nat)
  | [] => none
  | b :: rest =>
    if b = sep then some ([], rest)
    else (splitFirst sep rest).map (fun p => (b :: p.1, p.2))

theorem splitFirst_of_not_mem (sep : Nat) (l : List Nat) (h : sep ∉ l) :
    splitFirst sep l = none := by
  induction l with
  | nil => rfl
  | cons b rest ih =>
    simp only [List.mem_cons, not_or] at h
    have hb : ¬ b = sep := fun hb => h.1 hb.symm
    simp only [splitFirst, if_neg hb, ih h.2, Option.map_none']

theorem splitFirst_append_sep (sep : Nat) (seg rest : List Nat) (h : sep ∉ seg) :
    splitFirst sep (seg ++ sep :: rest) = some (seg, rest) := by
  induction seg with
  | nil => simp [splitFirst]
  | cons b bs ih =>
    simp only [List.mem_cons, not_or] at h
    have hb : ¬ b = sep := fun hb => h.1 hb.symm
    simp only [List.cons_append, splitFirst, if_neg hb, List.append_eq, ih h.2,
      Option.map_some']

theorem splitFirst_length (sep : Nat) (l a r : List Nat)
    (h : splitFirst sep l = some (a, r)) : r.length < l.length := by
  induction l generalizing a r with
  | nil => simp [splitFirst] at h
  | cons b rest ih =>
    simp only [splitFirst] at h
    by_cases hb : b = sep
    · simp only [if_pos hb, Option.some_inj, Prod.mk.injEq] at h
      simp [← h.2]
    · simp only [if_neg hb, Option.map_eq_some'] at h
      obtain ⟨p, hp, he⟩ := h
      cases he
      have := ih p.1 p.2 (by simpa using hp)
      simp only [List.length_cons]
      omega

/-- Model of the value extraction `strchr(value_start, sep)`/`strlen`:
take everything before the first `sep`, or the whole list when absent. -/
def takeUntil (sep : Nat) (l : List Nat) : List Nat :=
  match splitFirst sep l with
  | some (a, _) => a
  | none => l

theorem takeUntil_append (sep : Nat) (seg rest : List Nat) (h : sep ∉ seg) :
    takeUntil sep (seg ++ sep :: rest) = seg := by
  simp [takeUntil, splitFirst_append_sep sep seg rest h]

/-- ASCII `isalnum`. -/
def isAlnumByte (c : Nat) : Bool :=
  (48 ≤ c && c ≤ 57) || (65 ≤ c && c ≤ 90) || (97 ≤ c && c ≤ 122)

/-- Model of `is_url_safe` in `ecewo-session.c`. -/
def is_url_safe (c : Nat) : Bool :=
  isAlnumByte c || c = 45 || c = 95 || c = 46 || c = 126

/-- Upper-case hex digit of a nibble, as produced by `snprintf("%02X")`. -/
def hexDigitUpper (n : Nat) : Nat :=
  if n < 10 then 48 + n else 55 + n

/-- Model of `hex_to_int` in `ecewo-session.c` (and `url_decode_char` in
`ecewo-cookie.c`, which maps the same characters). -/
def hex_to_int (c : Nat) : Option Nat :=
  if 48 ≤ c ∧ c ≤ 57 then some (c - 48)
  else if 65 ≤ c ∧ c ≤ 70 then some (c - 65 + 10)
  else if 97 ≤ c ∧ c ≤ 102 then some (c - 97 + 10)
  else none

/-- Encoding of one byte by `url_encode`: safe bytes pass through, the rest
become `%XX` with upper-case hex. -/
def encByte (b : Nat) : List Nat :=
  if is_url_safe b then [b] else [37, hexDigitUpper (b / 16), hexDigitUpper (b % 16)]

/-- Model of `url_encode` in `ecewo-session.c` (the loop never truncates:
`j ≤ 3 i < 3 len - 2` always holds while `i < len`). -/
def url_encode : List Nat → List Nat
  | [] => []
  | b :: rest => encByte b ++ url_encode rest

/-- Model of `url_decode` in `ecewo-session.c`: a `%` followed by two valid
hex digits decodes to one byte, otherwise the byte passes through. -/
def url_decode : List Nat → List Nat
  | [] => []
  | b :: h :: l :: rest =>
    if b = 37 then
      match hex_to_int h, hex_to_int l with
      | some hv, some lv => (hv * 16 + lv) :: url_decode rest
      | _, _ => b :: url_decode (h :: l :: rest)
    else b :: url_decode (h :: l :: rest)
  | b :: rest => b :: url_decode rest

theorem hex_to_int_hexDigitUpper (n : Nat) (h : n < 16) :
    hex_to_int (hexDigitUpper n) = some n := by
  interval_cases n <;> decide

theorem url_decode_nil : url_decode [] = [] := rfl

theorem url_decode_cons_safe (b : Nat) (rest : List Nat) (h : b ≠ 37) :
    url_decode (b :: rest) = b :: url_decode rest := by
  match rest with
  | [] => rfl
  | [x] => rfl
  | x :: y :: t => simp [url_decode, h]

theorem url_decode_percent (h l : Nat) (rest : List Nat) (hv lv : Nat)
    (hh : hex_to_int h = some hv) (hl : hex_to_int l = some lv) :
    url_decode (37 :: h :: l :: rest) = (hv * 16 + lv) :: url_decode rest := by
  simp [url_decode, hh, hl]

theorem url_decode_url_encode (l : List Nat) (h : ∀ b ∈ l, b < 256) :
    url_decode (url_encode l) = l := by
  induction l with
  | nil => rfl
  | cons b rest ih =>
    have hb : b < 256 := h b (by simp)
    have hrest : ∀ x ∈ rest, x < 256 := fun x hx => h x (by simp [hx])
    simp only [url_encode, encByte]
    by_cases hs : is_url_safe b
    · rw [if_pos hs]
      have hb37 : b ≠ 37 := by
        intro he; subst he; simp [is_url_safe, isAlnumByte] at hs
      simp only [List.cons_append, List.nil_append]
      rw [url_decode_cons_safe b _ hb37, ih hrest]
    · rw [if_neg hs]
      simp only [List.cons_append, List.nil_append]
      rw [url_decode_percent _ _ _ (b / 16) (b % 16)
        (hex_to_int_hexDigitUpper (b / 16) (by omega))
        (hex_to_int_hexDigitUpper (b % 16) (by omega))]
      simp only [ih hrest, List.cons.injEq, and_true]
      omega

/-!
## Session payload (src/session/ecewo-session.c)

`KV_DELIMITER = 0x1F = 31`, `PAIR_DELIMITER = 0x1E = 30`,
`MAX_SESSION_DATA_SIZE = 4096`.
-/

/-- Model of the scan loop of `session_value_get`: find the first pair whose
key equals `ek` and return its (still encoded) value. -/
def lookupPairs (ek : List Nat) (data : List Nat) : Option (List Nat) :=
  match splitFirst 31 data with
  | none => none
  | some (key, rest) =>
    if key = ek then some (takeUntil 30 rest)
    else
      match _h30 : splitFirst 30 data with
      | none => none
      | some (_, rest2) => lookupPairs ek rest2
termination_by data.length
decreasing_by exact splitFirst_length 30 data _ rest2 _h30

/-- Model of `remove_key_from_data`: excise the first pair keyed `ek`
(shift the remainder up, or truncate when it is the last pair). -/
def remove_key_from_data (data : List Nat) (ek : List Nat) : List Nat :=
  match splitFirst 31 data with
  | none => data
  | some (key, rest) =>
    if key = ek then
      match splitFirst 30 rest with
      | some (_, after) => after
      | none => []
    else
      match _h30 : splitFirst 30 data with
      | none => data
      | some (seg, rest2) => seg ++ 30 :: remove_key_from_data rest2 ek
termination_by data.length
decreasing_by exact splitFirst_length 30 data _ rest2 _h30

/-- Count of the pairs keyed `ek` in a payload, following the same scan. -/
def countKey (ek : List Nat) (data : List Nat) : Nat :=
  match splitFirst 31 data with
  | none => 0
  | some (key, _) =>
    (if key = ek then 1 else 0) +
      match _h30 : splitFirst 30 data with
      | none => 0
      | some (_, rest2) => countKey ek rest2
termination_by data.length
decreasing_by exact splitFirst_length 30 data _ rest2 _h30

theorem lookupPairs_nil (ek data : List Nat) (h1 : splitFirst 31 data = none) :
    lookupPairs ek data = none := by
  rw [lookupPairs, h1]

theorem lookupPairs_found (ek data key rest : List Nat)
    (h1 : splitFirst 31 data = some (key, rest)) (hk : key = ek) :
    lookupPairs ek data = some (takeUntil 30 rest) := by
  rw [lookupPairs, h1]
  dsimp only
  rw [if_pos hk]

theorem lookupPairs_skip (ek data key rest seg rest2 : List Nat)
    (h1 : splitFirst 31 data = some (key, rest)) (hk : ¬ key = ek)
    (h2 : splitFirst 30 data = some (seg, rest2)) :
    lookupPairs ek data = lookupPairs ek rest2 := by
  rw [lookupPairs, h1]
  dsimp only
  rw [if_neg hk]
  split
  · rename_i heq
    rw [h2] at heq
    cases heq
  · rename_i a b heq
    rw [h2] at heq
    cases heq
    rfl

theorem remove_key_nil (data ek : List Nat) (h1 : splitFirst 31 data = none) :
    remove_key_from_data data ek = data := by
  rw [remove_key_from_data, h1]

theorem remove_key_found (data ek key rest x after : List Nat)
    (h1 : splitFirst 31 data = some (key, rest)) (hk : key = ek)
    (h2 : splitFirst 30 rest = some (x, after)) :
    remove_key_from_data data ek = after := by
  rw [remove_key_from_data, h1]
  dsimp only
  rw [if_pos hk, h2]

theorem remove_key_skip (data ek key rest seg rest2 : List Nat)
    (h1 : splitFirst 31 data = some (key, rest)) (hk : ¬ key = ek)
    (h2 : splitFirst 30 data = some (seg, rest2)) :
    remove_key_from_data data ek = seg ++ 30 :: remove_key_from_data rest2 ek := by
  rw [remove_key_from_data, h1]
  dsimp only
  rw [if_neg hk]
  split
  · rename_i heq
    rw [h2] at heq
    cases heq
  · rename_i a b heq
    rw [h2] at heq
    cases heq
    rfl

theorem countKey_nil (ek data : List Nat) (h1 : splitFirst 31 data = none) :
    countKey ek data = 0 := by
  rw [countKey, h1]

theorem countKey_step (ek data key rest seg rest2 : List Nat)
    (h1 : splitFirst 31 data = some (key, rest))
    (h2 : splitFirst 30 data = some (seg, rest2)) :
    countKey ek data = (if key = ek then 1 else 0) + countKey ek rest2 := by
  rw [countKey, h1]
  dsimp only
  congr 1
  split
  · rename_i heq
    rw [h2] at heq
    cases heq
  · rename_i a b heq
    rw [h2] at heq
    cases heq
    rfl

/-- Model of `session_value_set`: encode key and value, refuse the write when
the pre-removal payload plus the new pair would exceed 4096 bytes, otherwise
remove any existing pair with the encoded key and append
`encoded_key 0x1F encoded_value 0x1E`. -/
def session_value_set (data : List Nat) (key value : List Nat) : List Nat :=
  let ek := url_encode key
  let ev := url_encode value
  if data.length + ek.length + ev.length + 2 > 4096 then data
  else remove_key_from_data data ek ++ ek ++ 31 :: ev ++ [30]

/-- Model of `session_value_get`: encode the key, scan the pairs, URL-decode
the found value; `none` models the C `NULL` result. -/
def session_value_get (data : List Nat) (key : List Nat) : Option (List Nat) :=
  if data = [] then none
  else
    match lookupPairs (url_encode key) data with
    | none => none
    | some ev => some (url_decode ev)

/-- One encoded pair as stored in the payload. -/
def pairBytes (p : List Nat × List Nat) : List Nat :=
  p.1 ++ 31 :: p.2 ++ [30]

/-- Serialization of a list of encoded pairs, the shape every payload built
by `session_value_set` has. -/
def serPairs : List (List Nat × List Nat) → List Nat
  | [] => []
  | p :: ps => pairBytes p ++ serPairs ps

/-- An encoded pair is delimiter-free. -/
def goodPair (p : List Nat × List Nat) : Prop :=
  31 ∉ p.1 ∧ 30 ∉ p.1 ∧ 31 ∉ p.2 ∧ 30 ∉ p.2

/-- Reference lookup on the pair list. -/
def findPair (ek : List Nat) : List (List Nat × List Nat) → Option (List Nat)
  | [] => none
  | p :: ps => if p.1 = ek then some p.2 else findPair ek ps

/-- Reference removal of the first pair keyed `ek`. -/
def removeFirstPair (ek : List Nat) :
    List (List Nat × List Nat) → List (List Nat × List Nat)
  | [] => []
  | p :: ps => if p.1 = ek then ps else p :: removeFirstPair ek ps

theorem serPairs_append (xs ys : List (List Nat × List Nat)) :
    serPairs (xs ++ ys) = serPairs xs ++ serPairs ys := by
  induction xs with
  | nil => rfl
  | cons p ps ih => simp [serPairs, ih]

theorem splitFirst31_serPairs_cons (p : List Nat × List Nat)
    (ps : List (List Nat × List Nat)) (hp : goodPair p) :
    splitFirst 31 (serPairs (p :: ps)) = some (p.1, p.2 ++ 30 :: serPairs ps) := by
  have he : serPairs (p :: ps) = p.1 ++ 31 :: (p.2 ++ 30 :: serPairs ps) := by
    simp [serPairs, pairBytes]
  rw [he, splitFirst_append_sep 31 p.1 _ hp.1]

theorem splitFirst30_serPairs_cons (p : List Nat × List Nat)
    (ps : List (List Nat × List Nat)) (hp : goodPair p) :
    splitFirst 30 (serPairs (p :: ps)) = some (p.1 ++ 31 :: p.2, serPairs ps) := by
  have he : serPairs (p :: ps) = (p.1 ++ 31 :: p.2) ++ 30 :: serPairs ps := by
    simp [serPairs, pairBytes]
  rw [he]
  apply splitFirst_append_sep
  intro hmem
  rcases List.mem_append.mp hmem with h1 | h2
  · exact hp.2.1 h1
  · rcases List.mem_cons.mp h2 with h3 | h4
    · exact absurd h3 (by decide)
    · exact hp.2.2.2 h4

theorem lookupPairs_serPairs (ek : List Nat) (ps : List (List Nat × List Nat))
    (hg : ∀ p ∈ ps, goodPair p) :
    lookupPairs ek (serPairs ps) = findPair ek ps := by
  induction ps with
  | nil => exact lookupPairs_nil ek [] rfl
  | cons p ps ih =>
    have hp : goodPair p := hg p (by simp)
    have hps : ∀ q ∈ ps, goodPair q := fun q hq => hg q (by simp [hq])
    by_cases hk : p.1 = ek
    · rw [lookupPairs_found ek _ p.1 _ (splitFirst31_serPairs_cons p ps hp) hk]
      rw [takeUntil_append 30 p.2 (serPairs ps) hp.2.2.2]
      simp [findPair, hk]
    · rw [lookupPairs_skip ek _ p.1 _ _ _ (splitFirst31_serPairs_cons p ps hp) hk
        (splitFirst30_serPairs_cons p ps hp), ih hps]
      simp [findPair, hk]

theorem remove_key_serPairs (ek : List Nat) (ps : List (List Nat × List Nat))
    (hg : ∀ p ∈ ps, goodPair p) :
    remove_key_from_data (serPairs ps) ek = serPairs (removeFirstPair ek ps) := by
  induction ps with
  | nil => exact remove_key_nil [] ek rfl
  | cons p ps ih =>
    have hp : goodPair p := hg p (by simp)
    have hps : ∀ q ∈ ps, goodPair q := fun q hq => hg q (by simp [hq])
    by_cases hk : p.1 = ek
    · rw [remove_key_found _ ek p.1 _ p.2 (serPairs ps)
        (splitFirst31_serPairs_cons p ps hp) hk
        (splitFirst_append_sep 30 p.2 (serPairs ps) hp.2.2.2)]
      simp [removeFirstPair, hk]
    · rw [remove_key_skip _ ek p.1 _ _ _ (splitFirst31_serPairs_cons p ps hp) hk
        (splitFirst30_serPairs_cons p ps hp), ih hps]
      simp [removeFirstPair, serPairs, pairBytes, hk]

theorem countKey_serPairs (ek : List Nat) (ps : List (List Nat × List Nat))
    (hg : ∀ p ∈ ps, goodPair p) :
    countKey ek (serPairs ps) = (ps.filter (fun p => p.1 = ek)).length := by
  induction ps with
  | nil => exact countKey_nil ek [] rfl
  | cons p ps ih =>
    have hp : goodPair p := hg p (by simp)
    have hps : ∀ q ∈ ps, goodPair q := fun q hq => hg q (by simp [hq])
    rw [countKey_step ek _ p.1 _ _ _ (splitFirst31_serPairs_cons p ps hp)
      (splitFirst30_serPairs_cons p ps hp), ih hps]
    by_cases hk : p.1 = ek
    · simp [List.filter, hk]
      omega
    · simp [List.filter, hk]

theorem mem_url_encode_lower_bound (l : List Nat) (b : Nat) (hb : b ∈ url_encode l) :
    37 ≤ b := by
  induction l with
  | nil => simp [url_encode] at hb
  | cons x xs ih =>
    simp only [url_encode, List.mem_append] at hb
    rcases hb with h1 | h2
    · simp only [encByte] at h1
      by_cases hs : is_url_safe x
      · rw [if_pos hs] at h1
        simp only [List.mem_singleton] at h1
        subst h1
        simp only [is_url_safe, isAlnumByte, Bool.or_eq_true, decide_eq_true_eq,
          Bool.and_eq_true] at hs
        rcases hs with ((h | h) | h) | h | h | h <;> omega
      · rw [if_neg hs] at h1
        simp only [List.mem_cons, List.mem_singleton] at h1
        have hd : ∀ n, 37 ≤ hexDigitUpper n := by
          intro n
          simp only [hexDigitUpper]
          split <;> omega
        rcases h1 with h | h | h
        · omega
        · subst h; exact hd _
        · rcases h with h | h
          · subst h; exact hd _
          · cases h
    · exact ih h2

theorem goodPair_url_encode (k v : List Nat) :
    goodPair (url_encode k, url_encode v) := by
  refine ⟨fun h => ?_, fun h => ?_, fun h => ?_, fun h => ?_⟩ <;>
    have := mem_url_encode_lower_bound _ _ h <;> omega

theorem mem_removeFirstPair (ek : List Nat) (ps : List (List Nat × List Nat))
    (q : List Nat × List Nat) (hq : q ∈ removeFirstPair ek ps) : q ∈ ps := by
  induction ps with
  | nil => simp [removeFirstPair] at hq
  | cons p ps ih =>
    simp only [removeFirstPair] at hq
    by_cases hk : p.1 = ek
    · rw [if_pos hk] at hq
      exact List.mem_cons_of_mem p hq
    · rw [if_neg hk] at hq
      rcases List.mem_cons.mp hq with h | h
      · simp [h]
      · exact List.mem_cons_of_mem p (ih h)

theorem findPair_append_none (ek : List Nat) (xs ys : List (List Nat × List Nat))
    (h : findPair ek xs = none) : findPair ek (xs ++ ys) = findPair ek ys := by
  induction xs with
  | nil => rfl
  | cons p ps ih =>
    simp only [findPair] at h ⊢
    by_cases hk : p.1 = ek
    · rw [if_pos hk] at h
      cases h
    · rw [if_neg hk] at h ⊢
      exact ih h

theorem findPair_eq_none_of_filter_nil (ek : List Nat)
    (ps : List (List Nat × List Nat))
    (h : ps.filter (fun p => p.1 = ek) = []) : findPair ek ps = none := by
  induction ps with
  | nil => rfl
  | cons p ps ih =>
    by_cases hk : p.1 = ek
    · exfalso
      have hmem : p ∈ List.filter (fun q => decide (q.1 = ek)) (p :: ps) := by
        simp [List.mem_filter, hk]
      rw [h] at hmem
      simp at hmem
    · rw [findPair, if_neg hk]
      apply ih
      rw [List.filter_cons] at h
      simpa [hk] using h

theorem filter_removeFirstPair_nil (ek : List Nat) (ps : List (List Nat × List Nat))
    (h : (ps.filter (fun p => p.1 = ek)).length ≤ 1) :
    (removeFirstPair ek ps).filter (fun p => p.1 = ek) = [] := by
  induction ps with
  | nil => rfl
  | cons p ps ih =>
    rw [removeFirstPair]
    rw [List.filter_cons] at h
    by_cases hk : p.1 = ek
    · rw [if_pos hk]
      have hl : (List.filter (fun p => decide (p.1 = ek)) ps).length = 0 := by
        rw [if_pos (by simp [hk])] at h
        simp only [List.length_cons] at h
        omega
      exact List.length_eq_zero.mp hl
    · rw [if_neg hk, List.filter_cons]
      rw [if_neg (by simp [hk])]
      apply ih
      rwa [if_neg (by simp [hk])] at h

theorem removeFirstPair_append_matching (ek ev : List Nat)
    (xs : List (List Nat × List Nat)) (h : findPair ek xs = none) :
    removeFirstPair ek (xs ++ [(ek, ev)]) = xs := by
  induction xs with
  | nil => simp [removeFirstPair]
  | cons p ps ih =>
    rw [findPair] at h
    by_cases hk : p.1 = ek
    · rw [if_pos hk] at h
      cases h
    · rw [if_neg hk] at h
      rw [List.cons_append, removeFirstPair, if_neg hk, ih h]

/-- On a well-formed payload, `session_value_set` appends the freshly encoded
pair after removing the first pair with the same encoded key. -/
theorem session_value_set_serPairs (ps : List (List Nat × List Nat))
    (k v : List Nat) (hg : ∀ p ∈ ps, goodPair p)
    (hsz : (serPairs ps).length + (url_encode k).length + (url_encode v).length + 2
      ≤ 4096) :
    session_value_set (serPairs ps) k v =
      serPairs (removeFirstPair (url_encode k) ps ++ [(url_encode k, url_encode v)]) := by
  rw [session_value_set]
  rw [if_neg (by omega)]
  rw [remove_key_serPairs _ ps hg, serPairs_append]
  simp [serPairs, pairBytes]

/-- On a well-formed payload, `session_value_get` finds a pair appended at the end of a payload whose
other pairs all have different keys. -/
theorem session_value_get_appended (ps : List (List Nat × List Nat))
    (k v : List Nat) (hg : ∀ p ∈ ps, goodPair p)
    (hv : ∀ b ∈ v, b < 256)
    (hfind : findPair (url_encode k) ps = none) :
    session_value_get (serPairs (ps ++ [(url_encode k, url_encode v)])) k = some v := by
  rw [session_value_get]
  have hgood : ∀ p ∈ ps ++ [(url_encode k, url_encode v)], goodPair p := by
    intro p hp
    rcases List.mem_append.mp hp with h | h
    · exact hg p h
    · simp only [List.mem_singleton] at h
      subst h
      exact goodPair_url_encode k v
  have hne : serPairs (ps ++ [(url_encode k, url_encode v)]) ≠ [] := by
    rw [serPairs_append]
    simp [serPairs, pairBytes]
  rw [if_neg hne]
  rw [lookupPairs_serPairs _ _ hgood, findPair_append_none _ _ _ hfind]
  simp [findPair, url_decode_url_encode v hv]

theorem url_encode_replicate_97 (n : Nat) :
    url_encode (List.replicate n 97) = List.replicate n 97 := by
  have h97 : encByte 97 = [97] := by decide
  induction n with
  | zero => rfl
  | succ m ih => simp [List.replicate_succ, url_encode, h97, ih]

/-- C4 (counterexample): the claim fails as stated.  For the empty session
payload, `k = "a"` (non-empty, 1 ≤ 256 bytes) and `v` a run of 4095 `'a'`
bytes (4095 ≤ 4096 bytes), the write is rejected by the 4096-byte limit on
the encoded payload, so the following get returns `NULL`, not `v`. -/
theorem session_roundtrip_claim_cex :
    session_value_get (session_value_set (serPairs []) [97]
      (List.replicate 4095 97)) [97] ≠ some (List.replicate 4095 97) := by
  have henc : url_encode (List.replicate 4095 97) = List.replicate 4095 97 :=
    url_encode_replicate_97 4095
  have h97 : url_encode [97] = [97] := by decide
  have hset : session_value_set (serPairs []) [97] (List.replicate 4095 97)
      = serPairs [] := by
    rw [session_value_set, if_pos]
    rw [henc, h97]
    rw [show serPairs [] = ([] : List Nat) from rfl]
    rw [List.length_replicate]
    simp only [List.length_nil, List.length_cons]
    omega
  rw [hset]
  intro hcontra
  rw [show serPairs [] = ([] : List Nat) from rfl, session_value_get,
    if_pos rfl] at hcontra
  exact Option.noConfusion hcontra

/-- C4 (amended): for a well-formed session payload holding at most one pair
with the encoded key, a key/value write whose encoded pair still fits the
4096-byte payload limit is read back exactly by `session_value_get`. -/
theorem session_set_get_roundtrip (ps : List (List Nat × List Nat))
    (k v : List Nat)
    (hg : ∀ p ∈ ps, goodPair p)
    (hk_ne : k ≠ [])
    (hvb : ∀ b ∈ v, b < 256)
    (hcount : (ps.filter (fun p => p.1 = url_encode k)).length ≤ 1)
    (hsz : (serPairs ps).length + (url_encode k).length + (url_encode v).length + 2
      ≤ 4096) :
    session_value_get (session_value_set (serPairs ps) k v) k = some v := by
  rw [session_value_set_serPairs ps k v hg hsz]
  apply session_value_get_appended _ k v
  · intro q hq
    exact hg q (mem_removeFirstPair _ _ _ hq)
  · exact hvb
  · exact findPair_eq_none_of_filter_nil _ _ (filter_removeFirstPair_nil _ _ hcount)

/-- C4 (witness): the amended round-trip at the concrete input
`s = empty payload`, `k = "a"`, `v = "b"`. -/
theorem session_set_get_roundtrip_witness :
    session_value_get (session_value_set (serPairs []) [97] [98]) [97] = some [98] :=
  session_set_get_roundtrip [] [97] [98] (by simp) (by decide) (by decide)
    (by decide) (by decide)

/-- C5 (counterexample): the claim fails as stated.  On a fresh session,
`value_set(s, "a", "b")` succeeds, but `value_set(s, "a", v2)` with `v2` a
run of 4095 `'a'` bytes is rejected by the 4096-byte limit, so
`value_get(s, "a")` still returns `"b"`, not `v2`. -/
theorem session_overwrite_claim_cex :
    session_value_get (session_value_set (session_value_set (serPairs []) [97] [98])
      [97] (List.replicate 4095 97)) [97] ≠ some (List.replicate 4095 97) := by
  have hset1 : session_value_set (serPairs []) [97] [98]
      = serPairs [([97], [98])] := by
    have := session_value_set_serPairs [] [97] [98] (by simp) (by decide)
    rw [this]
    rw [show url_encode [97] = [97] from by decide,
      show url_encode [98] = [98] from by decide]
    rfl
  have henc : url_encode (List.replicate 4095 97) = List.replicate 4095 97 :=
    url_encode_replicate_97 4095
  have hset2 : session_value_set (serPairs [([97], [98])]) [97]
      (List.replicate 4095 97) = serPairs [([97], [98])] := by
    rw [session_value_set, if_pos]
    rw [henc, show url_encode [97] = [97] from by decide]
    rw [List.length_replicate]
    rw [show (serPairs [([97], [98])]).length = 4 from by decide]
    simp only [List.length_cons, List.length_nil]
    omega
  rw [hset1, hset2]
  have hget : session_value_get (serPairs [([97], [98])]) [97] = some [98] := by
    have := session_value_get_appended [] [97] [98] (by simp) (by decide) rfl
    rw [show url_encode [97] = [97] from by decide,
      show url_encode [98] = [98] from by decide] at this
    simpa using this
  rw [hget]
  intro hcontra
  have := Option.some.inj hcontra
  have hlen := congrArg List.length this
  rw [List.length_replicate] at hlen
  simp at hlen

/-- C5 (amended): on a well-formed payload holding at most one pair with the
encoded key, two successive writes to the same key followed by a get return
the second value, and the payload holds exactly one pair with that encoded
key — provided both writes fit the 4096-byte limit on the encoded payload. -/
theorem session_overwrite_once (ps : List (List Nat × List Nat))
    (k v1 v2 : List Nat)
    (hg : ∀ p ∈ ps, goodPair p)
    (hv2b : ∀ b ∈ v2, b < 256)
    (hcount : (ps.filter (fun p => p.1 = url_encode k)).length ≤ 1)
    (hsz1 : (serPairs ps).length + (url_encode k).length + (url_encode v1).length + 2
      ≤ 4096)
    (hsz2 : (serPairs (removeFirstPair (url_encode k) ps
        ++ [(url_encode k, url_encode v1)])).length
      + (url_encode k).length + (url_encode v2).length + 2 ≤ 4096) :
    session_value_get (session_value_set (session_value_set (serPairs ps) k v1)
        k v2) k = some v2
    ∧ countKey (url_encode k)
        (session_value_set (session_value_set (serPairs ps) k v1) k v2) = 1 := by
  have hset1 : session_value_set (serPairs ps) k v1 =
      serPairs (removeFirstPair (url_encode k) ps ++ [(url_encode k, url_encode v1)]) :=
    session_value_set_serPairs ps k v1 hg hsz1
  have hgrm : ∀ q ∈ removeFirstPair (url_encode k) ps, goodPair q :=
    fun q hq => hg q (mem_removeFirstPair _ _ _ hq)
  have hg1 : ∀ p ∈ removeFirstPair (url_encode k) ps
      ++ [(url_encode k, url_encode v1)], goodPair p := by
    intro p hp
    rcases List.mem_append.mp hp with h | h
    · exact hgrm p h
    · simp only [List.mem_singleton] at h
      subst h
      exact goodPair_url_encode k v1
  have hfilterrm : (removeFirstPair (url_encode k) ps).filter
      (fun p => p.1 = url_encode k) = [] :=
    filter_removeFirstPair_nil _ _ hcount
  have hfindrm : findPair (url_encode k) (removeFirstPair (url_encode k) ps) = none :=
    findPair_eq_none_of_filter_nil _ _ hfilterrm
  have hset2 : session_value_set
      (serPairs (removeFirstPair (url_encode k) ps ++ [(url_encode k, url_encode v1)]))
      k v2 = serPairs (removeFirstPair (url_encode k) ps
        ++ [(url_encode k, url_encode v2)]) := by
    rw [session_value_set_serPairs _ k v2 hg1 hsz2,
      removeFirstPair_append_matching _ _ _ hfindrm]
  rw [hset1, hset2]
  constructor
  · exact session_value_get_appended _ k v2 hgrm hv2b hfindrm
  · have hgood2 : ∀ p ∈ removeFirstPair (url_encode k) ps
        ++ [(url_encode k, url_encode v2)], goodPair p := by
      intro p hp
      rcases List.mem_append.mp hp with h | h
      · exact hgrm p h
      · simp only [List.mem_singleton] at h
        subst h
        exact goodPair_url_encode k v2
    rw [countKey_serPairs _ _ hgood2, List.filter_append, hfilterrm]
    simp [List.filter]

/-- C5 (witness): the amended overwrite property at the concrete input
`s = empty payload`, `k = "a"`, `v1 = "b"`, `v2 = "c"`. -/
theorem session_overwrite_once_witness :
    session_value_get (session_value_set (session_value_set (serPairs []) [97] [98])
        [97] [99]) [97] = some [99]
    ∧ countKey (url_encode [97])
        (session_value_set (session_value_set (serPairs []) [97] [98]) [97] [99]) = 1 :=
  session_overwrite_once [] [97] [98] [99] (by simp) (by decide) (by decide)
    (by decide) (by decide)

/-!
## Session table (src/session/ecewo-session.c)

`SESSION_ID_LEN = 32`, `MAX_SESSIONS_DEFAULT = 10`.  A slot whose id is the
empty byte string models a slot with `id[0] == '\0'`.
-/

/-- One slot of the `sessions` array. -/
structure SessSlot where
  sid : List Nat
  expires : Int
  sdata : Option (List Nat)
deriving DecidableEq

/-- A zeroed slot (`calloc` / `memset` / `session_free`). -/
def emptySlot : SessSlot := ⟨[], 0, none⟩

/-- Model of `cleanup_expired_sessions`: `session_free` every non-empty slot
whose expiry is strictly in the past. -/
def cleanup_expired_sessions (now : Int) (tbl : List SessSlot) : List SessSlot :=
  tbl.map (fun s => if s.sid ≠ [] ∧ s.expires < now then emptySlot else s)

/-- The 64-character charset `A-Z a-z 0-9 - _` of `generate_session_id`,
indexed. -/
def charsetByte (i : Nat) : Nat :=
  if i < 26 then 65 + i
  else if i < 52 then 97 + (i - 26)
  else if i < 62 then 48 + (i - 52)
  else if i = 62 then 45 else 95

/-- Model of `generate_session_id`: each entropy byte is reduced modulo 64
and mapped through the charset.  The entropy list is the output of the
random source (or of the fallback generator). -/
def generate_session_id (entropy : List Nat) : List Nat :=
  entropy.map (fun b => charsetByte (b % 64))

/-- Model of the empty-slot scan in `session_create`. -/
def firstEmptySlot : List SessSlot → Option Nat
  | [] => none
  | s :: rest =>
    if s.sid.isEmpty then some 0 else (firstEmptySlot rest).map (· + 1)

/-- Model of `session_create`: sweep expired slots, take the first empty
slot (doubling the table when full, the new slot being the old capacity),
store the generated id with `expires = now + max_age` and empty data.
Returns the new table and the chosen slot index. -/
def session_create (now max_age : Int) (entropy : List Nat)
    (tbl : List SessSlot) : List SessSlot × Nat :=
  let t1 := cleanup_expired_sessions now tbl
  let newSlot : SessSlot := ⟨generate_session_id entropy, now + max_age, some []⟩
  match firstEmptySlot t1 with
  | some i => (t1.set i newSlot, i)
  | none =>
    let t2 := t1 ++ List.replicate t1.length emptySlot
    (t2.set t1.length newSlot, t1.length)

/-- Model of `session_find`: first non-empty slot with the given id and
`expires ≥ now`. -/
def session_find (tbl : List SessSlot) (sid : List Nat) (now : Int) :
    Option SessSlot :=
  tbl.find? (fun s => !s.sid.isEmpty && s.sid == sid && decide (now ≤ s.expires))

theorem getD_listSet_self (l : List SessSlot) (x : SessSlot) (i : Nat)
    (h : i < l.length) : (l.set i x).getD i emptySlot = x := by
  induction l generalizing i with
  | nil => simp at h
  | cons a as ih =>
    cases i with
    | zero => rfl
    | succ j =>
      simp only [List.set, List.getD, List.length_cons] at h ⊢
      exact ih j (by omega)

theorem getD_listSet_ne (l : List SessSlot) (x : SessSlot) (i j : Nat)
    (h : i ≠ j) : (l.set i x).getD j emptySlot = l.getD j emptySlot := by
  induction l generalizing i j with
  | nil => simp [List.set]
  | cons a as ih =>
    cases i with
    | zero =>
      cases j with
      | zero => exact absurd rfl h
      | succ j' => rfl
    | succ i' =>
      cases j with
      | zero => rfl
      | succ j' => exact ih i' j' (by omega)

theorem length_cleanup (now : Int) (tbl : List SessSlot) :
    (cleanup_expired_sessions now tbl).length = tbl.length := by
  simp [cleanup_expired_sessions]

theorem cleanup_getD_sid (now : Int) (tbl : List SessSlot) (j : Nat) :
    ((cleanup_expired_sessions now tbl).getD j emptySlot).sid = []
    ∨ (cleanup_expired_sessions now tbl).getD j emptySlot = tbl.getD j emptySlot := by
  induction tbl generalizing j with
  | nil => left; rfl
  | cons s rest ih =>
    cases j with
    | zero =>
      simp only [cleanup_expired_sessions, List.map, List.getD]
      by_cases hc : s.sid ≠ [] ∧ s.expires < now
      · left
        simp [hc, emptySlot]
      · right
        simp [hc]
    | succ j' =>
      simpa [cleanup_expired_sessions, List.getD] using ih j'

theorem getD_append_lt (xs ys : List SessSlot) (j : Nat) (h : j < xs.length) :
    (xs ++ ys).getD j emptySlot = xs.getD j emptySlot := by
  induction xs generalizing j with
  | nil => simp at h
  | cons a as ih =>
    cases j with
    | zero => rfl
    | succ j' =>
      simp only [List.length_cons] at h
      simpa [List.getD] using ih j' (by omega)

theorem getD_replicate_empty (n j : Nat) :
    (List.replicate n emptySlot).getD j emptySlot = emptySlot := by
  induction n generalizing j with
  | zero => simp [List.getD]
  | succ m ih =>
    cases j with
    | zero => rfl
    | succ j' => simpa [List.replicate_succ, List.getD] using ih j'

theorem getD_append_ge (xs ys : List SessSlot) (j : Nat) (h : xs.length ≤ j) :
    (xs ++ ys).getD j emptySlot = ys.getD (j - xs.length) emptySlot := by
  induction xs generalizing j with
  | nil => simp
  | cons a as ih =>
    cases j with
    | zero => simp at h
    | succ j' =>
      simp only [List.length_cons] at h ⊢
      simpa [List.getD, Nat.succ_sub_succ] using ih j' (by omega)

theorem firstEmptySlot_spec (tbl : List SessSlot) (i : Nat)
    (h : firstEmptySlot tbl = some i) :
    i < tbl.length ∧ (tbl.getD i emptySlot).sid = [] := by
  induction tbl generalizing i with
  | nil => cases h
  | cons s rest ih =>
    simp only [firstEmptySlot] at h
    by_cases hs : s.sid.isEmpty
    · rw [if_pos hs] at h
      cases h
      refine ⟨by simp, ?_⟩
      simpa [List.getD, List.isEmpty_iff] using hs
    · rw [if_neg hs] at h
      simp only [Option.map_eq_some'] at h
      obtain ⟨i', hi', he⟩ := h
      subst he
      obtain ⟨h1, h2⟩ := ih i' hi'
      exact ⟨by simpa using h1, by simpa [List.getD] using h2⟩

/-- No two non-empty slots of the table carry the same id. -/
def distinctLiveIds (tbl : List SessSlot) : Prop :=
  ∀ i j, i < tbl.length → j < tbl.length → i ≠ j →
    (tbl.getD i emptySlot).sid ≠ [] → (tbl.getD j emptySlot).sid ≠ [] →
    (tbl.getD i emptySlot).sid ≠ (tbl.getD j emptySlot).sid

/-- Every non-empty slot of the table carries an id drawn from `S`. -/
def liveIdsFrom (tbl : List SessSlot) (S : List (List Nat)) : Prop :=
  ∀ j, j < tbl.length → (tbl.getD j emptySlot).sid ≠ [] →
    (tbl.getD j emptySlot).sid ∈ S

theorem liveIdsFrom_mono (tbl : List SessSlot) (S T : List (List Nat))
    (hsub : ∀ x ∈ S, x ∈ T) (h : liveIdsFrom tbl S) : liveIdsFrom tbl T :=
  fun j hj hne => hsub _ (h j hj hne)

theorem cleanup_distinct (now : Int) (tbl : List SessSlot)
    (hd : distinctLiveIds tbl) :
    distinctLiveIds (cleanup_expired_sessions now tbl) := by
  intro i j hi hj hij hni hnj
  rw [length_cleanup] at hi hj
  rcases cleanup_getD_sid now tbl i with h1 | h1
  · exact absurd h1 hni
  · rcases cleanup_getD_sid now tbl j with h2 | h2
    · exact absurd h2 hnj
    · rw [h1, h2]
      rw [h1] at hni
      rw [h2] at hnj
      exact hd i j hi hj hij hni hnj

theorem cleanup_liveIdsFrom (now : Int) (tbl : List SessSlot)
    (S : List (List Nat)) (hf : liveIdsFrom tbl S) :
    liveIdsFrom (cleanup_expired_sessions now tbl) S := by
  intro j hj hne
  rw [length_cleanup] at hj
  rcases cleanup_getD_sid now tbl j with h1 | h1
  · exact absurd h1 hne
  · rw [h1] at hne ⊢
    exact hf j hj hne

/-- Every slot of the table returned by `session_create` is either the new
slot (at the returned index), an empty slot, or carries the id the slot at
the same position had in the cleaned input table. -/
theorem session_create_getD (now max_age : Int) (entropy : List Nat)
    (tbl : List SessSlot) (j : Nat)
    (hj : j < (session_create now max_age entropy tbl).1.length)
    (hne : j ≠ (session_create now max_age entropy tbl).2) :
    ((session_create now max_age entropy tbl).1.getD j emptySlot).sid = []
    ∨ (session_create now max_age entropy tbl).1.getD j emptySlot
        = (cleanup_expired_sessions now tbl).getD j emptySlot := by
  rw [session_create] at hj hne ⊢
  simp only at hj hne ⊢
  cases hfind : firstEmptySlot (cleanup_expired_sessions now tbl) with
  | some i =>
    simp only [hfind] at hj hne ⊢
    right
    exact getD_listSet_ne _ _ i j (fun he => hne (he.symm)) 
  | none =>
    simp only [hfind] at hj hne ⊢
    rw [getD_listSet_ne _ _ _ j (fun he => hne he.symm)]
    by_cases hlt : j < (cleanup_expired_sessions now tbl).length
    · right
      exact getD_append_lt _ _ j hlt
    · left
      rw [getD_append_ge _ _ j (by omega), getD_replicate_empty]
      rfl

theorem getD_of_ge (l : List SessSlot) (j : Nat) (h : l.length ≤ j) :
    l.getD j emptySlot = emptySlot := by
  induction l generalizing j with
  | nil => simp [List.getD]
  | cons a as ih =>
    cases j with
    | zero => simp at h
    | succ j' =>
      simp only [List.length_cons] at h
      simpa [List.getD] using ih j' (by omega)

theorem session_create_getD_self (now max_age : Int) (entropy : List Nat)
    (tbl : List SessSlot)
    (h : (session_create now max_age entropy tbl).2
      < (session_create now max_age entropy tbl).1.length) :
    (session_create now max_age entropy tbl).1.getD
        (session_create now max_age entropy tbl).2 emptySlot
      = ⟨generate_session_id entropy, now + max_age, some []⟩ := by
  rw [session_create] at h ⊢
  simp only at h ⊢
  cases hfind : firstEmptySlot (cleanup_expired_sessions now tbl) with
  | some i =>
    simp only [hfind] at h ⊢
    have hi := (firstEmptySlot_spec _ i hfind).1
    exact getD_listSet_self _ _ i hi
  | none =>
    simp only [hfind] at h ⊢
    rw [List.length_set, List.length_append, List.length_replicate] at h
    exact getD_listSet_self _ _ _ (by rw [List.length_append, List.length_replicate]; omega)

theorem session_create_index_lt (now max_age : Int) (entropy : List Nat)
    (tbl : List SessSlot) (hne : tbl ≠ []) :
    (session_create now max_age entropy tbl).2
      < (session_create now max_age entropy tbl).1.length := by
  have hlen : 0 < tbl.length := List.length_pos.mpr hne
  rw [session_create]
  simp only
  cases hfind : firstEmptySlot (cleanup_expired_sessions now tbl) with
  | some i =>
    simp only [hfind]
    have hi := (firstEmptySlot_spec _ i hfind).1
    rw [List.length_set]
    exact hi
  | none =>
    simp only [hfind]
    rw [List.length_set, List.length_append, List.length_replicate, length_cleanup]
    omega

theorem session_create_preserves (now max_age : Int) (entropy : List Nat)
    (tbl : List SessSlot) (S : List (List Nat))
    (hd : distinctLiveIds tbl) (hf : liveIdsFrom tbl S)
    (hnew : generate_session_id entropy ∉ S) :
    distinctLiveIds (session_create now max_age entropy tbl).1
    ∧ liveIdsFrom (session_create now max_age entropy tbl).1
        (generate_session_id entropy :: S) := by
  have hother : ∀ j, j < (session_create now max_age entropy tbl).1.length →
      j ≠ (session_create now max_age entropy tbl).2 →
      ((session_create now max_age entropy tbl).1.getD j emptySlot).sid ≠ [] →
      ((session_create now max_age entropy tbl).1.getD j emptySlot).sid ∈ S ∧
      (j < tbl.length ∧
        ((session_create now max_age entropy tbl).1.getD j emptySlot).sid
          = (tbl.getD j emptySlot).sid) := by
    intro j hj hjr hjne
    rcases session_create_getD now max_age entropy tbl j hj hjr with h1 | h1
    · exact absurd h1 hjne
    · rw [h1] at hjne ⊢
      rcases cleanup_getD_sid now tbl j with h2 | h2
      · exact absurd h2 hjne
      · rw [h2] at hjne ⊢
        by_cases hjt : j < tbl.length
        · exact ⟨hf j hjt hjne, hjt, rfl⟩
        · rw [getD_of_ge tbl j (by omega)] at hjne
          exact absurd rfl hjne
  constructor
  · intro i j hi hj hij hni hnj
    by_cases hir : i = (session_create now max_age entropy tbl).2
    · have hslot := session_create_getD_self now max_age entropy tbl (hir ▸ hi)
      rw [hir, hslot]
      by_cases hjr : j = (session_create now max_age entropy tbl).2
      · exact absurd (hir.trans hjr.symm) hij
      · obtain ⟨hjS, -⟩ := hother j hj hjr hnj
        intro hcontra
        rw [← hcontra] at hjS
        exact hnew hjS
    · by_cases hjr : j = (session_create now max_age entropy tbl).2
      · have hslot := session_create_getD_self now max_age entropy tbl (hjr ▸ hj)
        rw [hjr, hslot]
        obtain ⟨hiS, -⟩ := hother i hi hir hni
        intro hcontra
        rw [hcontra] at hiS
        exact hnew hiS
      · obtain ⟨-, hit, hieq⟩ := hother i hi hir hni
        obtain ⟨-, hjt, hjeq⟩ := hother j hj hjr hnj
        rw [hieq, hjeq]
        rw [hieq] at hni
        rw [hjeq] at hnj
        exact hd i j hit hjt hij hni hnj
  · intro j hj hjne
    by_cases hjr : j = (session_create now max_age entropy tbl).2
    · have hslot := session_create_getD_self now max_age entropy tbl (hjr ▸ hj)
      rw [hjr, hslot]
      simp
    · obtain ⟨hjS, -⟩ := hother j hj hjr hjne
      exact List.mem_cons_of_mem _ hjS

/-- A bounded sequence of `session_create` calls, each given its wall-clock
time, max age and the entropy produced by the random source (or fallback). -/
def createMany (tbl : List SessSlot) : List (Int × Int × List Nat) → List SessSlot
  | [] => tbl
  | c :: rest => createMany (session_create c.1 c.2.1 c.2.2 tbl).1 rest

theorem createMany_invariant (calls : List (Int × Int × List Nat))
    (tbl : List SessSlot) (S : List (List Nat))
    (hd : distinctLiveIds tbl) (hf : liveIdsFrom tbl S)
    (hnd : (S ++ calls.map (fun c => generate_session_id c.2.2)).Nodup) :
    distinctLiveIds (createMany tbl calls) := by
  induction calls generalizing tbl S with
  | nil => exact hd
  | cons c rest ih =>
    rw [createMany]
    have hmemnd := hnd
    rw [List.map_cons] at hmemnd
    have hnew : generate_session_id c.2.2 ∉ S := by
      rcases List.nodup_append.mp hmemnd with ⟨-, -, hdisj⟩
      intro hmem
      exact hdisj hmem (by simp)
    obtain ⟨hd', hf'⟩ :=
      session_create_preserves c.1 c.2.1 c.2.2 tbl S hd hf hnew
    apply ih _ (generate_session_id c.2.2 :: S) hd' hf'
    have hperm : (S ++ generate_session_id c.2.2
        :: rest.map (fun c => generate_session_id c.2.2)).Perm
        ((generate_session_id c.2.2 :: S)
          ++ rest.map (fun c => generate_session_id c.2.2)) := by
      simpa using List.perm_middle.symm
    exact hperm.nodup (by simpa using hnd)

/-- The result of two `session_create` calls for which the random byte
source returned the same 32 bytes both times. -/
def collidingTable : List SessSlot :=
  createMany (List.replicate 10 emptySlot)
    [(0, 100, List.replicate 32 0), (0, 100, List.replicate 32 0)]

/-- C6 (counterexample): the claim fails as stated.  `session_create` never
compares the generated id against existing sessions, so when the random
source returns the same bytes twice (e.g. 32 zero bytes), slots 0 and 1 are
both live (non-empty id, unexpired) and share one identifier. -/
theorem session_ids_unique_claim_cex :
    (collidingTable.getD 0 emptySlot).sid ≠ []
    ∧ (collidingTable.getD 1 emptySlot).sid ≠ []
    ∧ (0 : Int) ≤ (collidingTable.getD 0 emptySlot).expires
    ∧ (0 : Int) ≤ (collidingTable.getD 1 emptySlot).expires
    ∧ (collidingTable.getD 0 emptySlot).sid = (collidingTable.getD 1 emptySlot).sid := by
  decide

/-- C6 (amended): starting from the freshly initialized table, after any
bounded sequence of `session_create` calls whose derived id strings are
pairwise distinct, no two live sessions share an identifier. -/
theorem session_ids_unique (calls : List (Int × Int × List Nat))
    (hnd : (calls.map (fun c => generate_session_id c.2.2)).Nodup) :
    distinctLiveIds (createMany (List.replicate 10 emptySlot) calls) := by
  apply createMany_invariant calls _ []
  · intro i j hi hj hij hni hnj
    rw [getD_replicate_empty] at hni
    exact absurd rfl hni
  · intro j hj hne
    rw [getD_replicate_empty] at hne
    exact absurd rfl hne
  · simpa using hnd

/-- C6 (witness): two creates whose entropies derive distinct ids leave the
table with pairwise-distinct live identifiers. -/
theorem session_ids_unique_witness :
    (([(0, 100, List.replicate 32 0), (0, 100, (List.replicate 32 1 : List Nat))].map
        (fun c => generate_session_id c.2.2)).Nodup)
    ∧ distinctLiveIds (createMany (List.replicate 10 emptySlot)
        [(0, 100, List.replicate 32 0), (0, 100, List.replicate 32 1)]) :=
  ⟨by decide, session_ids_unique _ (by decide)⟩

theorem find?_unique_slot (tbl : List SessSlot) (p : SessSlot → Bool) (idx : Nat)
    (hidx : idx < tbl.length)
    (hother : ∀ j, j < tbl.length → j ≠ idx → p (tbl.getD j emptySlot) = false) :
    tbl.find? p
      = if p (tbl.getD idx emptySlot) then some (tbl.getD idx emptySlot) else none := by
  induction tbl generalizing idx with
  | nil => simp at hidx
  | cons s rest ih =>
    cases idx with
    | zero =>
      have hg0 : (s :: rest).getD 0 emptySlot = s := rfl
      rw [hg0]
      cases hp : p s with
      | true => simp [List.find?, hp]
      | false =>
        rw [if_neg (by simp [hp])]
        have hrest : rest.find? p = none := by
          rw [List.find?_eq_none]
          intro x hx
          obtain ⟨j, hj, hxj⟩ := List.mem_iff_getElem.mp hx
          have hgd : rest.getD j emptySlot = x := by
            rw [List.getD_eq_getElem?_getD, List.getElem?_eq_getElem hj, hxj]
            rfl
          have := hother (j + 1) (by simpa using Nat.succ_lt_succ hj) (by omega)
          rw [show (s :: rest).getD (j + 1) emptySlot = rest.getD j emptySlot from rfl,
            hgd] at this
          simp [this]
        simp [List.find?, hp, hrest]
    | succ idx' =>
      have hp0 : p s = false := by
        have := hother 0 (by simp) (by omega)
        simpa using this
      have hidx' : idx' < rest.length := by simpa using hidx
      have hother' : ∀ j, j < rest.length → j ≠ idx' →
          p (rest.getD j emptySlot) = false := by
        intro j hj hne
        have := hother (j + 1) (by simpa using Nat.succ_lt_succ hj) (by omega)
        simpa using this
      have := ih idx' hidx' hother'
      simp only [List.find?, hp0]
      rw [this]
      rfl

/-- C7: a session created with `expires = now + max_age` is returned by
`session_find` at every time `t ≤ expires` and is not returned at any
`t > expires` (no other live slot carries the same id). -/
theorem session_find_after_create (tbl : List SessSlot) (now0 max_age t : Int)
    (e : List Nat)
    (htbl : tbl ≠ [])
    (hmax : 0 < max_age)
    (hid_ne : generate_session_id e ≠ [])
    (hfresh : ∀ j, j < tbl.length →
      (tbl.getD j emptySlot).sid ≠ generate_session_id e) :
    (t ≤ now0 + max_age →
      session_find (session_create now0 max_age e tbl).1 (generate_session_id e) t
        = some ⟨generate_session_id e, now0 + max_age, some []⟩)
    ∧ (now0 + max_age < t →
      session_find (session_create now0 max_age e tbl).1 (generate_session_id e) t
        = none) := by
  have hidx := session_create_index_lt now0 max_age e tbl htbl
  have hself := session_create_getD_self now0 max_age e tbl hidx
  have hother : ∀ j, j < (session_create now0 max_age e tbl).1.length →
      j ≠ (session_create now0 max_age e tbl).2 →
      (fun s => !s.sid.isEmpty && (s.sid == generate_session_id e)
        && decide (t ≤ s.expires))
        ((session_create now0 max_age e tbl).1.getD j emptySlot) = false := by
    intro j hj hjr
    rcases session_create_getD now0 max_age e tbl j hj hjr with h1 | h1
    · have hempty : ((session_create now0 max_age e tbl).1.getD j emptySlot).sid.isEmpty
          = true := by
        rw [h1]
        rfl
      simp only [hempty, Bool.not_true, Bool.false_and]
    · rw [h1]
      rcases cleanup_getD_sid now0 tbl j with h2 | h2
      · have hempty : ((cleanup_expired_sessions now0 tbl).getD j emptySlot).sid.isEmpty
            = true := by
          rw [h2]
          rfl
        simp only [hempty, Bool.not_true, Bool.false_and]
      · rw [h2]
        by_cases hjt : j < tbl.length
        · have hne := hfresh j hjt
          have hbeq : ((tbl.getD j emptySlot).sid == generate_session_id e) = false :=
            beq_eq_false_iff_ne.mpr hne
          simp only [hbeq, Bool.and_false, Bool.false_and]
        · rw [getD_of_ge tbl j (by omega)]
          rfl
  rw [session_find, find?_unique_slot _ _ _ hidx hother, hself]
  constructor
  · intro ht
    rw [if_pos]
    simp only [Bool.and_eq_true, Bool.not_eq_true']
    refine ⟨⟨?_, by simp⟩, by simpa using ht⟩
    simpa [List.isEmpty_iff] using hid_ne
  · intro ht
    rw [if_neg]
    simp only [Bool.and_eq_true, Bool.not_eq_true']
    intro hcontra
    have := hcontra.2
    simp only [decide_eq_true_eq] at this
    omega

/-- C7 (witness): with `max_age = 3600`, the created session is found at
`t = 3600` seconds and not found at `t = 3601` seconds. -/
theorem session_find_after_create_witness :
    session_find (session_create 0 3600 (List.replicate 32 0)
        (List.replicate 10 emptySlot)).1
        (generate_session_id (List.replicate 32 0)) 3600
      = some ⟨generate_session_id (List.replicate 32 0), 0 + 3600, some []⟩
    ∧ session_find (session_create 0 3600 (List.replicate 32 0)
        (List.replicate 10 emptySlot)).1
        (generate_session_id (List.replicate 32 0)) 3601
      = none :=
  ⟨(session_find_after_create (List.replicate 10 emptySlot) 0 3600 3600
      (List.replicate 32 0) (by decide) (by decide) (by decide) (by decide)).1
      (by decide),
   (session_find_after_create (List.replicate 10 emptySlot) 0 3600 3601
      (List.replicate 32 0) (by decide) (by decide) (by decide) (by decide)).2
      (by decide)⟩

/-!
## Async PostgreSQL bridge (src/src/postgres/ecewo-postgres.c)

The context runs on one event loop; each readiness callback, send and result
status is supplied by the environment.  `PgStepSpec` records, for the cycle
that executes one queued statement, what the environment did: whether
`server_is_running()` held when `execute_next_query` ran, whether the
non-blocking send succeeded, whether the poll handle could be armed, and how
the readiness callback ended (`server_is_running()` false, poll error,
`PQconsumeInput` failure, or a drain of results with their statuses).
-/

/-- One queued statement; `cbId` identifies its result callback. -/
structure PgStmt where
  cbId : Nat
deriving DecidableEq

/-- How the readiness callback (`on_poll`) for the armed statement ended. -/
inductive PgFinal where
  /-- the call `server_is_running()` returned false: stop and close the handle,
  clear `is_executing`, decrement the outstanding-work counter. -/
  | down : PgFinal
  /-- the poll reported `status < 0`: `handle_error`. -/
  | pollErr : PgFinal
  /-- the call `PQconsumeInput` failed: `handle_error`. -/
  | consumeErr : PgFinal
  /-- the connection was not busy: drain `PQgetResult` until NULL; each
  listed Bool is one result's status, `true` standing for
  `PGRES_TUPLES_OK`/`PGRES_COMMAND_OK`. -/
  | drained : List Bool → PgFinal
deriving DecidableEq

/-- Environment choices for the cycle that executes one queued statement. -/
structure PgStepSpec where
  running_at_exec : Bool
  send_ok : Bool
  arm_ok : Bool
  final : PgFinal
deriving DecidableEq

/-- The all-success cycle: server running, send and arm succeed, one result
with OK status. -/
def pgSuccessSpec : PgStepSpec :=
  ⟨true, true, true, PgFinal.drained [true]⟩

/-- The `PQgetResult` drain loop of `on_poll`: the current statement's
callback is invoked on every result (also on the failing one — the callback
runs before the status check); a non-OK status stops the drain.  Returns the
callback trace and whether all statuses were OK. -/
def drainResults (cb : Nat) : List Bool → List Nat × Bool
  | [] => ([], true)
  | ok :: rest =>
    if ok then
      let r := drainResults cb rest
      (cb :: r.1, r.2)
    else ([cb], false)

/-- Number of `decrement_async_work` calls made by `handle_error`: the decrement is
guarded by `pg->is_executing`. -/
def handle_error_decs (is_executing : Bool) : Nat :=
  if is_executing then 1 else 0

/-- The `execute_next_query` / `on_poll` loop, driven by one `PgStepSpec`
per queued statement (missing specs default to the all-success cycle).
Returns the trace of result-callback invocations and the number of
`decrement_async_work` calls.  Faithful to the C control flow:
an empty queue or `server_is_running()` false decrements unconditionally
and destroys the context; send/arm failures, poll errors, consume failures
and bad result statuses go through `handle_error`, whose decrement is
guarded by `is_executing`; a fully drained statement is freed and the next
one is issued. -/
def runQueue (is_executing : Bool) : List PgStmt → List PgStepSpec → List Nat × Nat
  | [], _ => ([], 1)
  | q :: rest, specs =>
    let spec := specs.headD pgSuccessSpec
    if spec.running_at_exec = false then ([], 1)
    else if spec.send_ok = false then ([], handle_error_decs is_executing)
    else if spec.arm_ok = false then ([], handle_error_decs is_executing)
    else
      match spec.final with
      | PgFinal.down => ([], 1)
      | PgFinal.pollErr => ([], handle_error_decs is_executing)
      | PgFinal.consumeErr => ([], handle_error_decs is_executing)
      | PgFinal.drained statuses =>
        let d := drainResults q.cbId statuses
        if d.2 then
          let r := runQueue is_executing rest specs.tail
          (d.1 ++ r.1, r.2)
        else (d.1, handle_error_decs is_executing)

/-- Outcome of `query_execute`. -/
inductive ExecOut where
  /-- returned `-1`. -/
  | err : ExecOut
  /-- returned `0` on an empty queue: the context is freed, nothing runs,
  the outstanding-work counter is untouched. -/
  | emptyOk : ExecOut
  /-- returned `0` after running: callback trace, `increment_async_work`
  calls, `decrement_async_work` calls. -/
  | ran : List Nat → Nat → Nat → ExecOut
deriving DecidableEq

/-- Model of `query_queue`: append one statement at the tail of the FIFO. -/
def query_queue (queue : List PgStmt) (s : PgStmt) : List PgStmt :=
  queue ++ [s]

/-- Model of `query_execute`: reject when not connected or already
executing; return 0 and free the context on an empty queue; otherwise
increment the outstanding-work counter once, set `is_executing` and run the
queue. -/
def query_execute (is_connected is_executing : Bool) (queue : List PgStmt)
    (specs : List PgStepSpec) : ExecOut :=
  if is_connected = false then ExecOut.err
  else if is_executing then ExecOut.err
  else if queue = [] then ExecOut.emptyOk
  else
    let r := runQueue true queue specs
    ExecOut.ran r.1 1 r.2

theorem query_queue_foldl (qs : List PgStmt) :
    List.foldl query_queue [] qs = qs := by
  suffices h : ∀ acc : List PgStmt, List.foldl query_queue acc qs = acc ++ qs by
    simpa using h []
  induction qs with
  | nil => simp
  | cons q rest ih =>
    intro acc
    simp [List.foldl, query_queue, ih]

theorem runQueue_success (qs : List PgStmt) :
    runQueue true qs [] = (qs.map PgStmt.cbId, 1) := by
  induction qs with
  | nil => rfl
  | cons q rest ih =>
    simp [runQueue, drainResults, pgSuccessSpec, ih]

/-- C2: queueing any sequence of statements with `query_queue` and then
calling `query_execute` invokes the statements' result callbacks in exactly
the order the statements were queued (each cycle succeeding with one OK
result). -/
theorem db_callbacks_in_enqueue_order (qs : List PgStmt) (hne : qs ≠ []) :
    query_execute true false (List.foldl query_queue [] qs) []
      = ExecOut.ran (qs.map PgStmt.cbId) 1 1 := by
  rw [query_execute]
  rw [query_queue_foldl]
  rw [if_neg (by simp), if_neg (by simp), if_neg hne]
  rw [runQueue_success]

/-- C2 (witness): three statements A, B, C yield callbacks A, B, C. -/
theorem db_callbacks_in_enqueue_order_witness :
    query_execute true false (List.foldl query_queue [] [⟨1⟩, ⟨2⟩, ⟨3⟩]) []
      = ExecOut.ran [1, 2, 3] 1 1 :=
  db_callbacks_in_enqueue_order [⟨1⟩, ⟨2⟩, ⟨3⟩] (by decide)

theorem runQueue_decs (qs : List PgStmt) (specs : List PgStepSpec) :
    (runQueue true qs specs).2 = 1 := by
  induction qs generalizing specs with
  | nil => rfl
  | cons q rest ih =>
    rw [runQueue]
    by_cases h1 : (specs.headD pgSuccessSpec).running_at_exec = false
    · rw [if_pos h1]
    · rw [if_neg h1]
      by_cases h2 : (specs.headD pgSuccessSpec).send_ok = false
      · rw [if_pos h2]
        rfl
      · rw [if_neg h2]
        by_cases h3 : (specs.headD pgSuccessSpec).arm_ok = false
        · rw [if_pos h3]
          rfl
        · rw [if_neg h3]
          cases hf : (specs.headD pgSuccessSpec).final with
          | down => rfl
          | pollErr => rfl
          | consumeErr => rfl
          | drained statuses =>
            by_cases hd : (drainResults q.cbId statuses).2
            · simp only [hd, if_pos]
              exact ih specs.tail
            · simp only [hd]
              rfl

/-- C3: whenever `query_execute` starts execution on a non-empty queue, the
outstanding-work counter is incremented exactly once, and exactly one
`decrement_async_work` happens on every termination path of the context —
normal drain, `PQconsumeInput` failure, poll error, send failure, failure
to arm the handle, a bad result status, or `server_is_running()` observed
false at issue time or in a readiness callback (all quantified by `specs`). -/
theorem db_work_counter_balanced (qs : List PgStmt) (specs : List PgStepSpec)
    (hne : qs ≠ []) :
    query_execute true false qs specs
      = ExecOut.ran (runQueue true qs specs).1 1 1 := by
  rw [query_execute]
  rw [if_neg (by simp), if_neg (by simp), if_neg hne]
  dsimp only
  rw [runQueue_decs qs specs]

/-- C3 (witness): a two-statement queue where the second cycle hits a
`PQconsumeInput` failure still increments once and decrements once. -/
theorem db_work_counter_balanced_witness :
    query_execute true false [⟨1⟩, ⟨2⟩]
        [pgSuccessSpec, ⟨true, true, true, PgFinal.consumeErr⟩]
      = ExecOut.ran [1] 1 1 := by
  have h := db_work_counter_balanced [⟨1⟩, ⟨2⟩]
    [pgSuccessSpec, ⟨true, true, true, PgFinal.consumeErr⟩] (by decide)
  rw [h]
  rfl

/-- C8 (counterexample): the claim fails as stated — `query_execute` on an
open connection, not executing, with an empty statement queue returns 0
(success, freeing the context), not an error, while the claim requires a
rejection. -/
theorem query_execute_empty_claim_cex :
    query_execute true false [] [] ≠ ExecOut.err := by
  decide

/-- C8 (amended): `query_execute` returns an error exactly when the
connection is not open or the context is already executing; in particular a
call while already executing is always rejected.  An empty queue is not an
error: it returns 0 without executing anything. -/
theorem query_execute_rejects_iff (is_connected is_executing : Bool)
    (queue : List PgStmt) (specs : List PgStepSpec) :
    query_execute is_connected is_executing queue specs = ExecOut.err
      ↔ (is_connected = false ∨ is_executing = true) := by
  rw [query_execute]
  by_cases h1 : is_connected = false
  · simp [h1]
  · rw [if_neg h1]
    by_cases h2 : is_executing = true
    · simp [h1, h2]
    · rw [if_neg h2]
      by_cases h3 : queue = []
      · rw [if_pos h3]
        simp [h1, h2]
      · rw [if_neg h3]
        simp [h1, h2]

/-!
## Cluster supervisor (src/src/cluster/ecewo-cluster.c)

`RESPAWN_THROTTLE_COUNT = 3`, `RESPAWN_THROTTLE_WINDOW = 5` seconds.
-/

/-- A master-side worker record: the ring of up to three restart timestamps
(`restart_times[0..2]`), the ring fill count, and the respawn-disable latch. -/
structure WorkerRec where
  t0 : Int
  t1 : Int
  t2 : Int
  restart_count : Nat
  respawn_disabled : Bool
deriving DecidableEq

/-- Write `restart_times[restart_count] = now` (after the clamp the count is
at most 2). -/
def writeRestartTime (w : WorkerRec) (now : Int) : WorkerRec :=
  if w.restart_count = 0 then { w with t0 := now }
  else if w.restart_count = 1 then { w with t1 := now }
  else if w.restart_count = 2 then { w with t2 := now }
  else w

/-- Model of `should_respawn_worker`: refuse when respawn is off or the
latch is set; otherwise evict the oldest timestamp when the ring is full,
append `now`, and if three restarts now span strictly less than five
seconds, set `respawn_disabled` and refuse; else allow the respawn. -/
def should_respawn_worker (respawn_cfg : Bool) (now : Int) (w : WorkerRec) :
    Bool × WorkerRec :=
  if !respawn_cfg || w.respawn_disabled then (false, w)
  else
    let w1 :=
      if w.restart_count ≥ 3 then
        { w with t0 := w.t1, t1 := w.t2, restart_count := 2 }
      else w
    let w2 := writeRestartTime w1 now
    let w3 := { w2 with restart_count := w2.restart_count + 1 }
    if w3.restart_count ≥ 3 ∧ now - w3.t0 < 5 then
      (false, { w3 with respawn_disabled := true })
    else (true, w3)

/-- Model of the `memset(worker, 0, ...)` performed by `spawn_worker` on
every spawn: the restart ring, the ring count and the `respawn_disabled`
latch are all cleared. -/
def spawn_worker_reset : WorkerRec :=
  ⟨0, 0, 0, 0, false⟩

/-- One non-zero worker exit outside of shutdown and graceful restart
(`on_exit_cb` with `is_crash` true): consult `should_respawn_worker`; when
it allows, `spawn_worker` respawns the worker and resets its record.
Returns whether a spawn occurred and the new record. -/
def on_worker_crash (respawn_cfg : Bool) (now : Int) (w : WorkerRec) :
    Bool × WorkerRec :=
  let r := should_respawn_worker respawn_cfg now w
  if r.1 then (true, spawn_worker_reset) else (false, r.2)

/-- A sequence of crashes at the given times: counts the spawns performed
and yields the final worker record. -/
def run_crashes (respawn_cfg : Bool) (w : WorkerRec) : List Int → Nat × WorkerRec
  | [] => (0, w)
  | now :: rest =>
    let r := on_worker_crash respawn_cfg now w
    let s := run_crashes respawn_cfg r.2 rest
    ((if r.1 then 1 else 0) + s.1, s.2)

/-- With respawns enabled, starting from a freshly spawned record, every
crash sequence leads to a respawn after every single crash and never sets
`respawn_disabled`: each respawn's `memset` clears the restart ring, so the
ring never accumulates three timestamps. -/
theorem respawn_disabled_unreachable (ts : List Int) :
    (run_crashes true spawn_worker_reset ts).1 = ts.length
    ∧ (run_crashes true spawn_worker_reset ts).2.respawn_disabled = false := by
  induction ts with
  | nil => exact ⟨rfl, rfl⟩
  | cons t rest ih =>
    have hstep : on_worker_crash true t spawn_worker_reset = (true, spawn_worker_reset) := by
      rw [on_worker_crash, should_respawn_worker]
      simp only [spawn_worker_reset, writeRestartTime, Bool.not_true, Bool.false_or]
      norm_num
    rw [run_crashes, hstep]
    simp only [List.length_cons, if_pos]
    refine ⟨?_, ih.2⟩
    rw [ih.1]
    omega

/-- C1: the claim is right and the code is wrong.  With respawns enabled, a
worker that exits non-zero at times 0, 1 and 2 seconds (three times within
five seconds) is respawned after every crash — the respawn after the third
crash being the fourth spawn of that worker — and `respawn_disabled` is
still false afterwards, because `spawn_worker` zeroes the whole worker
record (restart ring included) on every respawn, so `restart_count` never
reaches 3 and the disable branch of `should_respawn_worker` is unreachable. -/
theorem cluster_throttle_dead :
    (run_crashes true spawn_worker_reset [0, 1, 2]).1 = 3
    ∧ (run_crashes true spawn_worker_reset [0, 1, 2]).2.respawn_disabled = false := by
  decide

/-!
## Static file handler (src/src/static/ecewo-static.c)
-/

/-- Model of `strncmp(url, mount, mount_len) == 0`: `pat` is a prefix. -/
def startsWith : List Nat → List Nat → Bool
  | [], _ => true
  | _ :: _, [] => false
  | p :: ps, b :: bs => p = b && startsWith ps bs

/-- Model of `strstr(l, pat) != NULL`. -/
def containsSeq (pat : List Nat) : List Nat → Bool
  | [] => startsWith pat []
  | b :: bs => startsWith pat (b :: bs) || containsSeq pat bs

/-- Model of `is_safe_path`: no `".."` and no `"//"` substring. -/
def is_safe_path (p : List Nat) : Bool :=
  !containsSeq [46, 46] p && !containsSeq [47, 47] p

/-- The static options consulted by the handler. -/
structure StaticOptions where
  dot_files : Bool
  index_file : List Nat
deriving DecidableEq

/-- One registered static mount (`static_ctx_t`); `mount_len` is
`mount_path.length`. -/
structure StaticCtx where
  mount_path : List Nat
  dir_path : List Nat
  options : StaticOptions
deriving DecidableEq

/-- What `static_handler` does with a request. -/
inductive StaticOutcome where
  | forbidden : StaticOutcome
  | notFound : StaticOutcome
  /-- the function `send_file` is invoked on this resolved path. -/
  | fileRead : List Nat → StaticOutcome
deriving DecidableEq

/-- The mount-relative path: drop the mount prefix and one leading slash. -/
def relPath (ctx : StaticCtx) (url : List Nat) : List Nat :=
  let rel0 := url.drop ctx.mount_path.length
  if rel0.head? = some 47 then rel0.tail else rel0

/-- The resolved filesystem path built by `static_handler`'s `snprintf`
calls. -/
def resolvedPath (ctx : StaticCtx) (url : List Nat) : List Nat :=
  let rel := relPath ctx url
  if rel = [] then ctx.dir_path ++ 47 :: ctx.options.index_file
  else if rel.getLast? = some 47 then
    ctx.dir_path ++ 47 :: (rel ++ ctx.options.index_file)
  else ctx.dir_path ++ 47 :: rel

/-- One iteration of the `static_handler` mount loop: `none` when the mount
prefix does not match (continue with the next context). -/
def static_handler_one (ctx : StaticCtx) (url : List Nat) : Option StaticOutcome :=
  if startsWith ctx.mount_path url = false then none
  else if ctx.options.dot_files = false ∧ (relPath ctx url).head? = some 46 then
    some StaticOutcome.forbidden
  else if is_safe_path (resolvedPath ctx url) = false then
    some StaticOutcome.forbidden
  else some (StaticOutcome.fileRead (resolvedPath ctx url))

/-- Model of `static_handler`: first matching mount wins, otherwise 404.
(`send_file` re-checks `is_safe_path` on the same string before reading.) -/
def static_handler (ctxs : List StaticCtx) (url : List Nat) : StaticOutcome :=
  match ctxs with
  | [] => StaticOutcome.notFound
  | ctx :: rest =>
    match static_handler_one ctx url with
    | some o => o
    | none => static_handler rest url

theorem static_handler_one_safe (ctx : StaticCtx) (url p : List Nat)
    (h : static_handler_one ctx url = some (StaticOutcome.fileRead p)) :
    containsSeq [46, 46] p = false ∧ containsSeq [47, 47] p = false := by
  rw [static_handler_one] at h
  by_cases h1 : startsWith ctx.mount_path url = false
  · rw [if_pos h1] at h
    cases h
  · rw [if_neg h1] at h
    by_cases h2 : ctx.options.dot_files = false ∧ (relPath ctx url).head? = some 46
    · rw [if_pos h2] at h
      cases h
    · rw [if_neg h2] at h
      by_cases h3 : is_safe_path (resolvedPath ctx url) = false
      · rw [if_pos h3] at h
        cases h
      · rw [if_neg h3] at h
        cases h
        have hsafe : is_safe_path (resolvedPath ctx url) = true := by
          cases hb : is_safe_path (resolvedPath ctx url)
          · exact absurd hb h3
          · rfl
        rw [is_safe_path, Bool.and_eq_true, Bool.not_eq_true', Bool.not_eq_true']
          at hsafe
        exact hsafe

/-- C9 (amended): for every request routed to the static handler, a resolved
path containing `".."` or `"//"` is answered 403 and never read (every path
handed to `send_file` is free of both), and a request whose mount-relative
path starts with a dot is answered 403 when `dot_files` is off.  (The dot
check inspects only the first byte of the mount-relative path, so only a
leading-dot first component is rejected — not a dot file in a
subdirectory.) -/
theorem static_handler_safety (ctxs : List StaticCtx) (ctx : StaticCtx)
    (url : List Nat) :
    (∀ p, static_handler ctxs url = StaticOutcome.fileRead p →
      containsSeq [46, 46] p = false ∧ containsSeq [47, 47] p = false)
    ∧ (startsWith ctx.mount_path url = true → ctx.options.dot_files = false →
      (relPath ctx url).head? = some 46 →
      static_handler_one ctx url = some StaticOutcome.forbidden) := by
  constructor
  · induction ctxs with
    | nil =>
      intro p hp
      cases hp
    | cons c rest ih =>
      intro p hp
      rw [static_handler] at hp
      cases hone : static_handler_one c url with
      | some o =>
        rw [hone] at hp
        subst hp
        exact static_handler_one_safe c url p hone
      | none =>
        rw [hone] at hp
        exact ih p hp
  · intro hmount hdot hrel
    rw [static_handler_one]
    rw [if_neg (by rw [hmount]; intro hc; cases hc)]
    rw [if_pos ⟨hdot, hrel⟩]

/-- C9 (witness): a traversal attempt under mount `"/"` over `"./pub"` and a
leading-dot request are both rejected by the amended statement at a
concrete input. -/
theorem static_handler_safety_witness :
    (containsSeq [46, 46] [112, 117, 98, 47, 97, 46, 116, 120, 116] = false
      ∧ containsSeq [47, 47] [112, 117, 98, 47, 97, 46, 116, 120, 116] = false)
    ∧ static_handler_one ⟨[47], [112, 117, 98], ⟨false, [105, 110, 100, 101, 120]⟩⟩
        [47, 46, 101, 110, 118] = some StaticOutcome.forbidden :=
  ⟨(static_handler_safety [⟨[47], [112, 117, 98], ⟨false, [105, 110, 100, 101, 120]⟩⟩]
      ⟨[47], [112, 117, 98], ⟨false, [105, 110, 100, 101, 120]⟩⟩
      [47, 97, 46, 116, 120, 116]).1
      [112, 117, 98, 47, 97, 46, 116, 120, 116] (by decide),
   (static_handler_safety [] ⟨[47], [112, 117, 98], ⟨false, [105, 110, 100, 101, 120]⟩⟩
      [47, 46, 101, 110, 118]).2 (by decide) (by decide) (by decide)⟩

/-- C9 (counterexample): the claim fails as stated.  With `dot_files` off,
mount `"/"` over `"pub"`, the request `"/sub/.env"` asks for the file
`".env"` — a name beginning with a dot — yet the handler serves it
(`send_file` on `"pub/sub/.env"`), because the dot check looks only at the
first byte of the mount-relative path. -/
theorem static_dotfile_claim_cex :
    static_handler [⟨[47], [112, 117, 98], ⟨false, [105, 110, 100, 101, 120]⟩⟩]
        [47, 115, 117, 98, 47, 46, 101, 110, 118]
      = StaticOutcome.fileRead
        [112, 117, 98, 47, 115, 117, 98, 47, 46, 101, 110, 118]
    ∧ containsSeq [47, 46] [112, 117, 98, 47, 115, 117, 98, 47, 46, 101, 110, 118]
      = true := by
  decide

/-!
## Cookie parsing (src/cookie/ecewo-cookie.c)

`MAX_COOKIE_NAME_LEN = 256`, `MAX_COOKIE_SIZE = 4096`,
`MAX_COOKIES_PER_REQUEST = 50`.
-/

/-- ASCII `isspace` (space, TAB, LF, VT, FF, CR). -/
def isSpaceByte (c : Nat) : Bool :=
  c = 32 || c = 9 || c = 10 || c = 11 || c = 12 || c = 13

/-- Model of `is_token_char`: printable ASCII minus the RFC 2616
separators. -/
def is_token_char (c : Nat) : Bool :=
  (33 ≤ c && c ≤ 126) &&
    !([40, 41, 60, 62, 64, 44, 59, 58, 92, 34, 47, 91, 93, 63, 61, 123, 125,
      32, 9].contains c)

/-- Model of `is_valid_cookie_name`. -/
def is_valid_cookie_name (name : List Nat) : Bool :=
  !name.isEmpty && name.length ≤ 256 && name.all is_token_char

/-- Model of `trim_whitespace`: drop leading then trailing whitespace. -/
def trimWs (l : List Nat) : List Nat :=
  ((l.dropWhile isSpaceByte).reverse.dropWhile isSpaceByte).reverse

/-- The value extraction of `cookie_get` for a matched entry: trim, return
the empty string for an empty value, strip one layer of surrounding quotes,
URL-decode. -/
def cookie_entry_value (vl : List Nat) : List Nat :=
  let v := trimWs vl
  if v = [] then []
  else if 2 ≤ v.length ∧ v.head? = some 34 ∧ v.getLast? = some 34 then
    url_decode (v.drop 1).dropLast
  else url_decode v

/-- The scan loop of `cookie_get`, with `budget = 50 - cookie_count`
remaining entries it may examine.  Each iteration skips whitespace, takes
the bytes up to the next `';'` (or all remaining bytes), skips oversized
entries and entries without `'='`, and compares the trimmed name. -/
def cookie_scan (name : List Nat) : Nat → List Nat → Option (List Nat)
  | 0, _ => none
  | budget + 1, header =>
    let pos := header.dropWhile isSpaceByte
    if pos = [] then none
    else
      match splitFirst 59 pos with
      | some (entry, rest) =>
        if 4096 < entry.length then cookie_scan name budget rest
        else
          match splitFirst 61 entry with
          | none => cookie_scan name budget rest
          | some (nm, vl) =>
            if trimWs nm = name then some (cookie_entry_value vl)
            else cookie_scan name budget rest
      | none =>
        if 4096 < pos.length then none
        else
          match splitFirst 61 pos with
          | none => none
          | some (nm, vl) =>
            if trimWs nm = name then some (cookie_entry_value vl)
            else none

/-- Model of `cookie_get` on a request whose `Cookie` header holds the given
bytes: validate the cookie name, then scan at most 50 entries. -/
def cookie_get (name header : List Nat) : Option (List Nat) :=
  if is_valid_cookie_name name = false then none
  else cookie_scan name 50 header

/-- An entry the scan loop passes over: after leading whitespace it is
oversized, has no `'='`, or has a trimmed name different from `name`. -/
def entrySkipped (name e : List Nat) : Bool :=
  let e0 := e.dropWhile isSpaceByte
  if 4096 < e0.length then true
  else
    match splitFirst 61 e0 with
    | none => true
    | some (nm, _) => trimWs nm ≠ name

/-- The header formed by the given entries separated by `';'`, followed by
`tail` as the final part. -/
def joinEntries : List (List Nat) → List Nat → List Nat
  | [], tail => tail
  | e :: es, tail => e ++ 59 :: joinEntries es tail

theorem dropWhile_append_cases (p : Nat → Bool) (xs ys : List Nat) :
    (xs ++ ys).dropWhile p
      = if xs.dropWhile p = [] then ys.dropWhile p else xs.dropWhile p ++ ys := by
  induction xs with
  | nil => simp
  | cons a as ih =>
    by_cases ha : p a
    · simpa [List.dropWhile, ha] using ih
    · simp [List.dropWhile, ha]

theorem cookie_scan_step (name e rest : List Nat) (b : Nat)
    (h59 : 59 ∉ e) (hskip : entrySkipped name e = true) :
    cookie_scan name (b + 1) (e ++ 59 :: rest) = cookie_scan name b rest := by
  rw [cookie_scan]
  rw [dropWhile_append_cases]
  by_cases he : e.dropWhile isSpaceByte = []
  · rw [if_pos he]
    have hdw : (59 :: rest).dropWhile isSpaceByte = 59 :: rest := by
      rw [List.dropWhile_cons_of_neg (by decide)]
    rw [hdw]
    rw [if_neg (show ¬ (59 :: rest) = [] by simp)]
    rw [show splitFirst 59 (59 :: rest) = some ([], rest) from by
      rw [splitFirst, if_pos rfl]]
    dsimp only
    rw [if_neg (by decide)]
    rw [show splitFirst 61 ([] : List Nat) = none from rfl]
  · rw [if_neg he]
    have hne : e.dropWhile isSpaceByte ++ 59 :: rest ≠ [] := by
      simp
    rw [if_neg hne]
    have h59' : 59 ∉ e.dropWhile isSpaceByte :=
      fun hmem => h59 ((List.dropWhile_sublist isSpaceByte).subset hmem)
    rw [splitFirst_append_sep 59 _ rest h59']
    dsimp only
    rw [entrySkipped] at hskip
    by_cases hlen : 4096 < (e.dropWhile isSpaceByte).length
    · rw [if_pos hlen]
    · rw [if_neg hlen]
      rw [if_neg hlen] at hskip
      cases h61 : splitFirst 61 (e.dropWhile isSpaceByte) with
      | none => rfl
      | some nmvl =>
        rw [h61] at hskip
        obtain ⟨nm, vl⟩ := nmvl
        simp only [decide_eq_true_eq] at hskip
        dsimp only
        rw [if_neg hskip]

theorem cookie_scan_through (name : List Nat) (entries : List (List Nat))
    (tail : List Nat) (b : Nat)
    (hwf : ∀ e ∈ entries, 59 ∉ e ∧ entrySkipped name e = true) :
    cookie_scan name (entries.length + b) (joinEntries entries tail)
      = cookie_scan name b tail := by
  induction entries with
  | nil => simp [joinEntries]
  | cons e es ih =>
    have he := hwf e (by simp)
    have hes : ∀ x ∈ es, 59 ∉ x ∧ entrySkipped name x = true :=
      fun x hx => hwf x (by simp [hx])
    rw [joinEntries]
    rw [show (e :: es).length + b = (es.length + b) + 1 from by
      simp [List.length_cons]; omega]
    rw [cookie_scan_step name e _ (es.length + b) he.1 he.2]
    exact ih hes

theorem dropWhile_all_false (p : Nat → Bool) (l : List Nat)
    (h : ∀ c ∈ l, p c = false) : l.dropWhile p = l := by
  induction l with
  | nil => rfl
  | cons a as ih =>
    rw [List.dropWhile_cons_of_neg (by simp [h a (by simp)])]

theorem trimWs_eq_self (l : List Nat) (h : ∀ c ∈ l, isSpaceByte c = false) :
    trimWs l = l := by
  rw [trimWs, dropWhile_all_false _ _ h]
  rw [dropWhile_all_false _ _ (fun c hc => h c (List.mem_reverse.mp hc))]
  exact List.reverse_reverse l

theorem valid_name_token (name : List Nat) (h : is_valid_cookie_name name = true) :
    ∀ c ∈ name, is_token_char c = true := by
  rw [is_valid_cookie_name, Bool.and_eq_true, Bool.and_eq_true] at h
  exact fun c hc => List.all_eq_true.mp h.2 c hc

theorem token_facts (c : Nat) (h : is_token_char c = true) :
    isSpaceByte c = false ∧ c ≠ 59 ∧ c ≠ 61 := by
  rw [is_token_char, Bool.and_eq_true] at h
  obtain ⟨hrange, hsep⟩ := h
  rw [Bool.and_eq_true] at hrange
  simp only [decide_eq_true_eq] at hrange
  refine ⟨?_, ?_, ?_⟩
  · rw [isSpaceByte]
    simp only [Bool.or_eq_false_iff, decide_eq_false_iff_not]
    omega
  · intro hc
    subst hc
    simp at hsep
  · intro hc
    subst hc
    simp at hsep

/-- C10: `cookie_get` examines at most 50 cookies.  (a) When the first 50
entries all get skipped (no `'='`, oversized, or a different name), the
result is `NULL` whatever follows — in particular when the named cookie
appears only after the 50th entry.  (b) When fewer than 50 such entries
precede an entry `name=` with an empty value, the result is the empty
string (`some []`, distinct from the `none` that models `NULL`). -/
theorem cookie_get_scan_limit (name : List Nat) (entries : List (List Nat))
    (tail : List Nat)
    (hname : is_valid_cookie_name name = true)
    (hwf : ∀ e ∈ entries, 59 ∉ e ∧ entrySkipped name e = true) :
    (entries.length = 50 → cookie_get name (joinEntries entries tail) = none)
    ∧ (entries.length ≤ 49 →
      cookie_get name (joinEntries entries (name ++ [61])) = some []) := by
  have htok := valid_name_token name hname
  have hnsp : ∀ c ∈ name, isSpaceByte c = false :=
    fun c hc => (token_facts c (htok c hc)).1
  have h59n : (59 : Nat) ∉ name :=
    fun hmem => (token_facts 59 (htok 59 hmem)).2.1 rfl
  have h61n : (61 : Nat) ∉ name :=
    fun hmem => (token_facts 61 (htok 61 hmem)).2.2 rfl
  have hnne : name ≠ [] := by
    rw [is_valid_cookie_name, Bool.and_eq_true, Bool.and_eq_true] at hname
    have := hname.1.1
    simpa [List.isEmpty_iff] using this
  have hnlen : name.length ≤ 256 := by
    rw [is_valid_cookie_name, Bool.and_eq_true, Bool.and_eq_true] at hname
    have := hname.1.2
    simpa using this
  constructor
  · intro h50
    rw [cookie_get, if_neg (by rw [hname]; simp)]
    rw [show (50 : Nat) = entries.length + 0 from by omega]
    rw [cookie_scan_through name entries tail 0 hwf]
    rfl
  · intro h49
    rw [cookie_get, if_neg (by rw [hname]; simp)]
    rw [show (50 : Nat) = entries.length + (50 - entries.length) from by omega]
    rw [cookie_scan_through name entries _ _ hwf]
    obtain ⟨b, hb⟩ : ∃ b, 50 - entries.length = b + 1 :=
      ⟨49 - entries.length, by omega⟩
    rw [hb, cookie_scan]
    have hdrop : (name ++ [61]).dropWhile isSpaceByte = name ++ [61] := by
      apply dropWhile_all_false
      intro c hc
      rcases List.mem_append.mp hc with h | h
      · exact hnsp c h
      · simp only [List.mem_singleton] at h
        subst h
        rfl
    rw [hdrop]
    rw [if_neg (by simp [hnne])]
    rw [splitFirst_of_not_mem 59 (name ++ [61]) (by
      intro hmem
      rcases List.mem_append.mp hmem with h | h
      · exact h59n h
      · simp at h)]
    dsimp only
    rw [if_neg (by rw [List.length_append]; simp; omega)]
    rw [show splitFirst 61 (name ++ [61]) = some (name, []) from
      splitFirst_append_sep 61 name [] h61n]
    dsimp only
    rw [if_pos (trimWs_eq_self name hnsp)]
    rfl

/-- C10 (witness): with 50 skipped entries `"a=x"` ahead of it, the cookie
`user` is not found; with 49 such entries, `"user="` yields the empty
string. -/
theorem cookie_get_scan_limit_witness :
    cookie_get [117, 115, 101, 114]
        (joinEntries (List.replicate 50 [97, 61, 120])
          [117, 115, 101, 114, 61, 118]) = none
    ∧ cookie_get [117, 115, 101, 114]
        (joinEntries (List.replicate 49 [97, 61, 120])
          ([117, 115, 101, 114] ++ [61])) = some [] :=
  ⟨(cookie_get_scan_limit [117, 115, 101, 114] (List.replicate 50 [97, 61, 120])
      [117, 115, 101, 114, 61, 118] (by decide) (by decide)).1 (by decide),
   (cookie_get_scan_limit [117, 115, 101, 114] (List.replicate 49 [97, 61, 120])
      ([117, 115, 101, 114] ++ [61]) (by decide) (by decide)).2 (by decide)⟩
